import Mathlib

/-!
Verification of the SupervisedWSD Naive Bayes notebook.

The definitions below are a shallow embedding of the executable cells of
`SupervisedWSD/NaiveBayes.ipynb`.  Python lists become Lean lists, tuples
become products, and any Python expression that can raise (an out-of-range
index, in particular `tokenizer.tokenize(w)[0]` on a token the tokenizer
discards entirely) is embedded in `Option`, with `none` for the raised
exception.  Python reference semantics matter in one place, the corpus
loading loop of cell-6, and are modelled explicitly there.
-/

namespace WSD

/-- The characters of Python `string.punctuation`.  Cell-11 builds
`translator = str.maketrans(..., string.punctuation)` and uses it to delete
exactly these characters from a token. -/
def punctuationChars : List Char :=
  "!\"#$%&\x27()*+,-./:;<=>?@[\\]^_\x60\x7b|\x7d~".toList

/-- Python `word.translate(translator)` of cell-11: delete every punctuation
character of the string, keeping the rest in order. -/
def removePunct (s : String) : String :=
  String.mk (s.toList.filter (fun c => !punctuationChars.contains c))

/-- Python `str.lower()` restricted to the ASCII tokens of this corpus:
lowercase every character. -/
def pyLower (s : String) : String :=
  String.mk (s.toList.map Char.toLower)

/-- Python `s.split(sep)[0]` for a one-character separator: the prefix of the
string before the first occurrence of the separator (the whole string when the
separator does not occur, the empty string for the empty string). -/
def pySplitHead (sep : Char) (s : String) : String :=
  String.mk (s.toList.takeWhile (fun c => c != sep))

/-- A regex word character (`\w`) over the ASCII data of this corpus:
alphanumeric or underscore. -/
def isWordChar (c : Char) : Bool :=
  c.isAlphanum || c == '_'

/-- One character of the `WordPunctTokenizer` scan for `\w+|[^\w\s]+`.
The state is (tokens already emitted, current run as (is-word-run, reversed
characters)).  Whitespace closes the current run; a character of the other
kind closes the run and opens a new one. -/
def wptStep (st : List String × Option (Bool × List Char)) (c : Char) :
    List String × Option (Bool × List Char) :=
  if c.isWhitespace then
    match st.2 with
    | none => (st.1, none)
    | some cur => (st.1 ++ [String.mk cur.2.reverse], none)
  else
    match st.2 with
    | none => (st.1, some (isWordChar c, [c]))
    | some cur =>
      if cur.1 == isWordChar c then (st.1, some (cur.1, c :: cur.2))
      else (st.1 ++ [String.mk cur.2.reverse], some (isWordChar c, [c]))

/-- `WordPunctTokenizer().tokenize(s)`: the maximal runs of `s` matched by
`\w+|[^\w\s]+`, in order. -/
def wordPunctTokenize (s : String) : List String :=
  match s.toList.foldl wptStep ([], none) with
  | (acc, none) => acc
  | (acc, some cur) => acc ++ [String.mk cur.2.reverse]

/-- Cell-11 `tokenize(text)`: for each `(token, POS)` pair of the tagged text,
take the first WordPunct token of the token string
(`tokenizer.tokenize(w[0])[0]`; the index raises -- here `none` -- when the
tokenizer returns no token at all), lowercase it, delete its punctuation
characters, and keep the `(normalized, POS)` pair exactly when the result is
nonempty.  The `filters` list defined next to it in cell-11 is never
consulted. -/
def tokenize : List (String × String) → Option (List (String × String))
  | [] => some []
  | (t, pos) :: rest =>
    match (wordPunctTokenize t).head? with
    | none => none
    | some w =>
      match tokenize rest with
      | none => none
      | some tl =>
        if 1 ≤ (removePunct (pyLower w)).length
        then some ((removePunct (pyLower w), pos) :: tl)
        else some tl

/-- Python slice `l[-k:]`: the last `k` elements -- except that `k = 0` gives
the whole list back, because `-0 == 0` and `l[0:]` is all of `l`. -/
def pyTakeLast {α : Type} (k : Nat) (l : List α) : List α :=
  if k = 0 then l else l.drop (l.length - k)

/-- Cell-13 `extract_context(target_position, text, context)`: split the
tagged text at the target position, tokenize both parts, and return the last
`context` normalized pairs on the left together with the first `context`
normalized pairs on the right. -/
def extract_context (targetPosition : Nat) (text : List (String × String))
    (ctx : Nat) : Option (List (String × String) × List (String × String)) :=
  match tokenize (text.take targetPosition) with
  | none => none
  | some l =>
    match tokenize (text.drop (targetPosition + 1)) with
    | none => none
    | some r => some (pyTakeLast ctx l, r.take ctx)

/-- The feature dictionary built by cell-17: keys `word`, `co-occ`,
`context`, `pos_context`. -/
structure FeatureRecord where
  word : String
  cooc : List Nat
  context : List String
  pos_context : List String
deriving DecidableEq

/-- Cell-17 `extract_features(targetword, left_ctxt, right_ctxt, co_occ_vector)`:
context words are left then right, POS tags likewise, the co-occurrence bit
for vocabulary entry `i` is 1 exactly when `i` occurs among the context
words, and the `word` entry is `targetword.split('.')[0]`. -/
def extract_features (targetword : String)
    (leftCtxt rightCtxt : List (String × String))
    (coOccVector : List String) : FeatureRecord :=
  let contextText := leftCtxt.map Prod.fst ++ rightCtxt.map Prod.fst
  ⟨pySplitHead '.' targetword,
   coOccVector.map (fun i => if i ∈ contextText then 1 else 0),
   contextText,
   leftCtxt.map Prod.snd ++ rightCtxt.map Prod.snd⟩

/-- A raw Senseval corpus instance as the NLTK reader yields it: the senses
field is the tuple of gold sense labels. -/
structure RawInstance where
  word : String
  position : Nat
  context : List (String × String)
  senses : List String
deriving DecidableEq

/-- An entry of the `instances` list after the cell-6 loading loop: its
senses field has been overwritten with a single sense string. -/
structure LoadedInstance where
  word : String
  position : Nat
  context : List (String × String)
  senses : String
deriving DecidableEq

/-- The cell-6 inner loop `for sense in senses: temp_instance.senses = sense;
instances.append(temp_instance)` acting on the single shared `temp_instance`
object (deep-copied once, before the loop).  The state is (current value of
the shared object's senses field, number of references appended so far). -/
def sensesLoop (senses : List String) : String × Nat :=
  senses.foldl (fun st sense => (sense, st.2 + 1)) ("", 0)

/-- Observable contribution of one corpus instance to the `instances` list of
cell-6: every appended entry is a reference to the one shared `temp_instance`
object, so after the loop each of them reads the object's final state. -/
def expandInstance (i : RawInstance) : List LoadedInstance :=
  List.replicate (sensesLoop i.senses).2
    ⟨i.word, i.position, i.context, (sensesLoop i.senses).1⟩

/-- The cell-19 filter applied to one context window: keep a token when it is
not a stopword and is longer than one character. -/
def contentTokens (stopwords : List String)
    (window : List (String × String)) : List String :=
  (window.map Prod.fst).filter
    (fun t => decide (t ∉ stopwords) && decide (1 < t.length))

/-- Body of the cell-19 aggregation loop over `instances` for one class word:
skip instances of other words, and otherwise append the filtered tokens of
both context windows (failure of `extract_context` propagates). -/
def lemmaStep (stopwords : List String) (classword : String) (ctx : Nat)
    (acc : List String) (inst : LoadedInstance) : Option (List String) :=
  if classword = inst.word then
    match extract_context inst.position inst.context ctx with
    | none => none
    | some lr =>
      some (acc ++ contentTokens stopwords lr.1 ++ contentTokens stopwords lr.2)
  else some acc

/-- Cell-19 `lemmas_for_class` for one class word: all filtered context
tokens of that word's instances, in corpus order. -/
def lemmasForClass (stopwords : List String) (classword : String)
    (insts : List LoadedInstance) (ctx : Nat) : Option (List String) :=
  insts.foldlM (lemmaStep stopwords classword ctx) []

/-- First-occurrence deduplication: the key order of the counter that
`FreqDist` builds from the aggregated token list (dict insertion order, i.e.
order of first occurrence). -/
def dedupFirst (l : List String) : List String :=
  l.foldl (fun acc x => if x ∈ acc then acc else acc ++ [x]) []

/-- Stable insertion into a list sorted by descending count: the new element
goes in front of the first entry whose count does not exceed its own.  Used
to model the stable descending sort performed by `most_common`. -/
def insertByDesc (c : String → Nat) (x : String) : List String → List String
  | [] => [x]
  | y :: ys => if c y ≤ c x then x :: y :: ys else y :: insertByDesc c x ys

/-- Stable sort by descending count.  `FreqDist.most_common` sorts the
counter items by descending count with CPython's stable sort, so entries of
equal count keep their dict insertion order. -/
def sortByDesc (c : String → Nat) : List String → List String
  | [] => []
  | x :: xs => insertByDesc c x (sortByDesc c xs)

/-- Cell-19 co-occurrence vocabulary for one class word: the keys of
`FreqDist(lemmas_for_class).most_common(k)` (cell-19 then slices with `[:k]`
a second time, which is the same list). -/
def buildVocab (stopwords : List String) (k : Nat) (classword : String)
    (insts : List LoadedInstance) (ctx : Nat) : Option (List String) :=
  match lemmasForClass stopwords classword insts ctx with
  | none => none
  | some lemmas =>
    some ((sortByDesc (fun w => lemmas.count w) (dedupFirst lemmas)).take k)

/-- Cell-23 per-word split of the shuffled `feature_sets` list:
`sample = int(len(fs)*0.2)` (for a natural length `n`, `int(n*0.2) = n / 5`),
`training_set = fs[sample+1:]` and `test_set = fs[:sample]`.
Returns `(training_set, test_set)`. -/
def splitSets {α : Type} (fs : List α) : List α × List α :=
  (fs.drop (fs.length / 5 + 1), fs.take (fs.length / 5))

/-- Cell-31 merged split of the re-shuffled pool `total`:
`divide = int(len(total)*0.2)`, `train_set = total[divide:]`,
`test_set = total[:divide]`.  Returns `(train_set, test_set)`. -/
def mergedSplit {α : Type} (total : List α) : List α × List α :=
  (total.drop (total.length / 5), total.take (total.length / 5))

/-- Cell-23 per-instance record: the target word handed to
`extract_features` is the surface token at the target position,
`instance.context[instance.position][0]` (an out-of-range position raises,
hence `none`). -/
def instanceFeature (inst : LoadedInstance) (vocab : List String)
    (ctx : Nat) : Option FeatureRecord :=
  match inst.context.get? inst.position with
  | none => none
  | some tok =>
    match extract_context inst.position inst.context ctx with
    | none => none
    | some lr => some (extract_features tok.1 lr.1 lr.2 vocab)

/-- Cell-23 selection test
`label_word == instance.word and label_sense in instance.senses`: after the
cell-6 loader `instance.senses` is a single string, so the Python `in` is
substring containment, not membership in a collection. -/
def selects (labelWord labelSense : String) (inst : LoadedInstance) : Bool :=
  labelWord == inst.word &&
    decide (List.IsInfix labelSense.toList inst.senses.toList)

/-- Body of the cell-23 loop over `instances` for one label: a selected
instance appends its feature record paired with the label. -/
def featureStep (labelWord labelSense : String) (vocab : List String)
    (ctx : Nat) (acc : List (FeatureRecord × (String × String)))
    (inst : LoadedInstance) :
    Option (List (FeatureRecord × (String × String))) :=
  if selects labelWord labelSense inst then
    match instanceFeature inst vocab ctx with
    | none => none
    | some fr => some (acc ++ [(fr, (labelWord, labelSense))])
  else some acc

/-- Cell-23 `feature_sets` for one label `(label_word, label_sense)`. -/
def featureSets (labelWord labelSense : String)
    (insts : List LoadedInstance) (vocab : List String) (ctx : Nat) :
    Option (List (FeatureRecord × (String × String))) :=
  insts.foldlM (featureStep labelWord labelSense vocab ctx) []

/-- Modelled from the spec: the Evaluator of section 4.6.  The notebook
delegates evaluation to `nltk.classify.accuracy` (cell-29), library code
that is not part of this repository.  Following the spec, the trained
classifier is abstracted as a prediction function, accuracy is the number of
test records whose predicted label equals the gold label divided by the
number of test records, and an empty test set yields an undefined accuracy
(`none`) rather than a division. -/
def accuracy (predict : FeatureRecord → String × String)
    (testSet : List (FeatureRecord × (String × String))) : Option ℚ :=
  if testSet.isEmpty then none
  else
    some (((testSet.filter (fun p => predict p.1 == p.2)).length : ℚ) /
      (testSet.length : ℚ))

/-! ## Helper lemmas -/

lemma sensesLoop_count :
    ∀ (l : List String) (s : String) (n : Nat),
    (l.foldl (fun st sense => (sense, st.2 + 1)) (s, n)).2 = n + l.length := by
  intro l
  induction l with
  | nil => intro s n; simp
  | cons x xs ih =>
    intro s n
    rw [List.foldl_cons, List.length_cons]
    exact (ih x (n + 1)).trans (by omega)

lemma getD_map_lt {α β : Type} (f : α → β) :
    ∀ (l : List α) (i : Nat), i < l.length → ∀ (d : β) (d' : α),
    (l.map f).getD i d = f (l.getD i d') := by
  intro l
  induction l with
  | nil => intro i hi; exact absurd hi (by simp)
  | cons x xs ih =>
    intro i hi d d'
    cases i with
    | zero => rfl
    | succ n => exact ih n (by simpa using hi) d d'

/-! ## C1 -/

/-- C1 (code bug, evaluated at the failing input): on a shuffled list of five
feature records with ratio 0.2, `sample = 1`, the test set is the first
element and the training set starts at index `sample + 1 = 2`, so the record
at index 1 lands in neither set and the two sizes sum to 4, not 5.  The
claimed partition property of the Dataset Splitter fails because of the
`sample+1` slice in cell-23. -/
theorem splitSets_drops_boundary :
    (splitSets [0, 1, 2, 3, 4]).2 = [0] ∧
    (splitSets [0, 1, 2, 3, 4]).1 = [2, 3, 4] ∧
    (splitSets [0, 1, 2, 3, 4]).2.length + (splitSets [0, 1, 2, 3, 4]).1.length = 4 ∧
    1 ∉ (splitSets [0, 1, 2, 3, 4]).1 ∧ 1 ∉ (splitSets [0, 1, 2, 3, 4]).2 := by
  decide

/-! ## C2 -/

/-- C2 (code bug, evaluated at the failing input): the cell-6 loader does
append as many entries as the instance has senses, but every appended entry
is a reference to the same once-deep-copied object, whose senses field ends
up holding the last sense of the tuple.  For an instance with senses
`("HARD1", "HARD2")` both stored entries carry `"HARD2"` and no stored entry
carries `"HARD1"`, contradicting the claimed one-synthetic-instance-per-sense
expansion. -/
theorem expandInstance_aliasing :
    (∀ i : RawInstance, (expandInstance i).length = i.senses.length) ∧
    expandInstance ⟨"hard-a", 0, [], ["HARD1", "HARD2"]⟩ =
      [⟨"hard-a", 0, [], "HARD2"⟩, ⟨"hard-a", 0, [], "HARD2"⟩] ∧
    ((expandInstance ⟨"hard-a", 0, [], ["HARD1", "HARD2"]⟩).filter
        (fun j => j.senses == "HARD1")).length = 0 := by
  refine ⟨?_, by decide, by decide⟩
  intro i
  unfold expandInstance
  rw [List.length_replicate]
  exact (sensesLoop_count i.senses "" 0).trans (Nat.zero_add _)

/-! ## C3 -/

/-- C3 (counterexample): cell-31 does not concatenate the per-word splits; it
re-shuffles the combined pool and re-splits it.  With per-word training sets
concatenating to `[10, 11, 12, 13]`, per-word test sets concatenating to
`[14]`, and the identity permutation as the (possible) outcome of
`random.shuffle`, the merged test set is `[10]`: it differs from the
concatenation of the per-word test sets and contains a record that came from
a per-word training set. -/
theorem mergedSplit_not_concatenation :
    (mergedSplit ([10, 11, 12, 13] ++ [14])).2 ≠ [14] ∧
    10 ∈ (mergedSplit ([10, 11, 12, 13] ++ [14])).2 ∧
    10 ∈ [10, 11, 12, 13] ∧
    (mergedSplit ([10, 11, 12, 13] ++ [14])).1 ≠ [10, 11, 12, 13] := by
  decide

/-- C3 (amended): the merged pool is the concatenation of the per-word
training sets followed by the per-word test sets; after a fresh shuffle
(modelled as any permutation of the pool) the merged test set is the first
`⌊0.2·n⌋` elements of the shuffled pool and the merged training set the
remainder, so the two merged sets partition the shuffled pool exactly (no
loss: cell-31 slices at `divide`, not `divide + 1`) -- but a merged test
record may originate from a per-word training set. -/
theorem mergedSplit_partitions (α : Type) :
    ∀ (subTrain subTest shuffled : List α),
    shuffled.Perm (subTrain ++ subTest) →
    (mergedSplit shuffled).2 ++ (mergedSplit shuffled).1 = shuffled ∧
    (mergedSplit shuffled).2.length + (mergedSplit shuffled).1.length
      = subTrain.length + subTest.length ∧
    (mergedSplit shuffled).2.length = (subTrain.length + subTest.length) / 5 := by
  intro a b l h
  have hlen : l.length = a.length + b.length := by simpa using h.length_eq
  refine ⟨List.take_append_drop _ _, ?_, ?_⟩
  · simp only [mergedSplit, List.length_take, List.length_drop]
    omega
  · simp only [mergedSplit, List.length_take]
    omega

/-- Witness for the amended C3 statement at a concrete shuffled pool. -/
theorem mergedSplit_partitions_witness :
    (mergedSplit [0, 1, 2, 3, 4]).2 ++ (mergedSplit [0, 1, 2, 3, 4]).1 = [0, 1, 2, 3, 4] ∧
    (mergedSplit [0, 1, 2, 3, 4]).2.length + (mergedSplit [0, 1, 2, 3, 4]).1.length
      = [0, 1, 2].length + [3, 4].length ∧
    (mergedSplit [0, 1, 2, 3, 4]).2.length = ([0, 1, 2].length + [3, 4].length) / 5 :=
  mergedSplit_partitions Nat [0, 1, 2] [3, 4] [0, 1, 2, 3, 4] (by decide)

/-! ## C4 -/

/-- C4 (counterexample): the word field of a record of a `line-n` instance
whose target-position surface token is `"lines"` is `"lines"`, not the lemma
portion `"line"` of the instance's target word `"line-n"`: cell-23 passes
`instance.context[instance.position][0]` to `extract_features`, never
`instance.word`. -/
theorem instanceFeature_word_not_lemma :
    (instanceFeature ⟨"line-n", 0, [("lines", "NNS")], "cord"⟩ [] 2).map
        FeatureRecord.word = some "lines" ∧
    pySplitHead '-' "line-n" = "line" ∧
    ("lines" : String) ≠ "line" := by
  refine ⟨rfl, rfl, by decide⟩

/-- C4 (amended): for every extracted FeatureRecord, the word field equals
the surface token found at the instance's target position inside its context,
truncated at the first `'.'` (Python `split('.')[0]`); the instance's target
word (e.g. `"hard-a"`) is not consulted. -/
theorem instanceFeature_word_eq :
    ∀ (inst : LoadedInstance) (vocab : List String) (ctx : Nat)
      (fr : FeatureRecord) (tok : String × String),
    inst.context.get? inst.position = some tok →
    instanceFeature inst vocab ctx = some fr →
    fr.word = pySplitHead '.' tok.1 := by
  intro inst vocab ctx fr tok htok h
  unfold instanceFeature at h
  rw [htok] at h
  cases hec : extract_context inst.position inst.context ctx with
  | none => rw [hec] at h; exact absurd h (by simp)
  | some lr =>
    rw [hec] at h
    have := Option.some.inj h
    rw [← this]
    rfl

/-- Witness for the amended C4 statement at a concrete instance. -/
theorem instanceFeature_word_eq_witness :
    (extract_features "lines" [] [] []).word = pySplitHead '.' "lines" :=
  instanceFeature_word_eq ⟨"line-n", 0, [("lines", "NNS")], "cord"⟩ [] 2
    (extract_features "lines" [] [] []) ("lines", "NNS") rfl rfl

/-! ## C8 -/

/-- C8: for every FeatureRecord built by `extract_features` against a
vocabulary `v`, the co-occurrence bit vector has exactly `v.length` entries,
its `i`-th entry is 1 exactly when the `i`-th vocabulary token occurs among
the record's context tokens and 0 otherwise, and on the spec's scenario
(context tokens `["guitar", "player"]`, vocabulary
`["fishing", "player", "sound"]`) the bits are `[0, 1, 0]`. -/
theorem extract_features_cooc_spec :
    (∀ (tw : String) (l r : List (String × String)) (v : List String),
      (extract_features tw l r v).cooc.length = v.length) ∧
    (∀ (tw : String) (l r : List (String × String)) (v : List String) (i : Nat),
      i < v.length →
      (extract_features tw l r v).cooc.getD i 0 =
        if v.getD i "" ∈ (extract_features tw l r v).context then 1 else 0) ∧
    (extract_features "bass" [("guitar", "NN"), ("player", "NN")] []
        ["fishing", "player", "sound"]).cooc = [0, 1, 0] := by
  refine ⟨?_, ?_, by decide⟩
  · intro tw l r v
    simp [extract_features]
  · intro tw l r v i hi
    have hcooc : (extract_features tw l r v).cooc =
        v.map (fun w => if w ∈ l.map Prod.fst ++ r.map Prod.fst then 1 else 0) := rfl
    have hctx : (extract_features tw l r v).context
        = l.map Prod.fst ++ r.map Prod.fst := rfl
    rw [hcooc, hctx]
    exact getD_map_lt _ v i hi 0 ""

/-- Witness for the index part of C8 at the spec's scenario, `i = 1`. -/
theorem extract_features_cooc_spec_witness :
    (extract_features "bass" [("guitar", "NN"), ("player", "NN")] []
        ["fishing", "player", "sound"]).cooc.getD 1 0 =
      if (["fishing", "player", "sound"].getD 1 "") ∈
          (extract_features "bass" [("guitar", "NN"), ("player", "NN")] []
            ["fishing", "player", "sound"]).context then 1 else 0 :=
  extract_features_cooc_spec.2.1 "bass" [("guitar", "NN"), ("player", "NN")] []
    ["fishing", "player", "sound"] 1 (by decide)

/-! ## Tokenizer lemmas for C6 and C7 -/

lemma wptStep_snd_isSome (st : List String × Option (Bool × List Char)) (c : Char)
    (hc : c.isWhitespace = false) : (wptStep st c).2.isSome = true := by
  simp only [wptStep, hc, Bool.false_eq_true, if_false]
  split
  · rfl
  · split <;> rfl

lemma wptStep_fst_ne (st : List String × Option (Bool × List Char)) (c : Char)
    (h : st.1 ≠ []) : (wptStep st c).1 ≠ [] := by
  unfold wptStep
  split
  · split
    · exact h
    · simp
  · split
    · exact h
    · split
      · exact h
      · simp

lemma wptStep_ws_flush (st : List String × Option (Bool × List Char)) (c : Char)
    (hc : c.isWhitespace = true) (cur : Bool × List Char) (h2 : st.2 = some cur) :
    (wptStep st c).1 ≠ [] := by
  simp [wptStep, hc, h2]

lemma wptStep_preserves (st : List String × Option (Bool × List Char)) (c : Char)
    (h : st.1 ≠ [] ∨ st.2.isSome = true) :
    (wptStep st c).1 ≠ [] ∨ (wptStep st c).2.isSome = true := by
  rcases hc : c.isWhitespace with _ | _
  · exact Or.inr (wptStep_snd_isSome st c hc)
  · rcases h with h | h
    · exact Or.inl (wptStep_fst_ne st c h)
    · obtain ⟨cur, h2⟩ := Option.isSome_iff_exists.mp h
      exact Or.inl (wptStep_ws_flush st c hc cur h2)

lemma wptStep_empty (st : List String × Option (Bool × List Char)) (c : Char)
    (h1 : (wptStep st c).1 = []) (h2 : (wptStep st c).2 = none) :
    st.1 = [] ∧ st.2 = none ∧ c.isWhitespace = true := by
  rcases hc : c.isWhitespace with _ | _
  · have := wptStep_snd_isSome st c hc
    rw [h2] at this
    simp at this
  · cases h2' : st.2 with
    | some cur => exact absurd h1 (wptStep_ws_flush st c hc cur h2')
    | none =>
      have heq : wptStep st c = (st.1, none) := by simp [wptStep, hc, h2']
      rw [heq] at h1
      exact ⟨h1, rfl, rfl⟩


lemma foldl_wpt_empty :
    ∀ (l : List Char) (st : List String × Option (Bool × List Char)),
    (l.foldl wptStep st).1 = [] → (l.foldl wptStep st).2 = none →
    st.1 = [] ∧ st.2 = none ∧ ∀ c ∈ l, c.isWhitespace = true := by
  intro l
  induction l with
  | nil => intro st h1 h2; exact ⟨h1, h2, by simp⟩
  | cons c t ih =>
    intro st h1 h2
    rw [List.foldl_cons] at h1 h2
    obtain ⟨ha, hb, hall⟩ := ih (wptStep st c) h1 h2
    obtain ⟨ha', hb', hc⟩ := wptStep_empty st c ha hb
    refine ⟨ha', hb', ?_⟩
    intro x hx
    rcases List.mem_cons.mp hx with rfl | hx
    · exact hc
    · exact hall x hx

lemma foldl_wpt_allws :
    ∀ (l : List Char), (∀ c ∈ l, c.isWhitespace = true) →
    l.foldl wptStep (([], none) : List String × Option (Bool × List Char))
      = ([], none) := by
  intro l
  induction l with
  | nil => intro _; rfl
  | cons c t ih =>
    intro h
    rw [List.foldl_cons]
    have hc : c.isWhitespace = true := h c (by simp)
    have heq : wptStep (([], none) : List String × Option (Bool × List Char)) c
        = ([], none) := by simp [wptStep, hc]
    rw [heq]
    exact ih (fun x hx => h x (by simp [hx]))

/-- A string produces no WordPunct token exactly when all of its characters
are whitespace (in particular, when it is empty). -/
lemma wordPunctTokenize_eq_nil_iff (s : String) :
    wordPunctTokenize s = [] ↔ ∀ c ∈ s.toList, c.isWhitespace = true := by
  constructor
  · intro h
    unfold wordPunctTokenize at h
    rcases hf : s.toList.foldl wptStep (([], none) :
        List String × Option (Bool × List Char)) with ⟨acc, cur⟩
    rw [hf] at h
    cases cur with
    | some cur => simp at h
    | none =>
      have h1 : (s.toList.foldl wptStep (([], none) :
          List String × Option (Bool × List Char))).1 = [] := by rw [hf]; exact h
      have h2 : (s.toList.foldl wptStep (([], none) :
          List String × Option (Bool × List Char))).2 = none := by rw [hf]
      exact (foldl_wpt_empty s.toList _ h1 h2).2.2
  · intro h
    unfold wordPunctTokenize
    rw [foldl_wpt_allws s.toList h]

/-- Cell-11 `tokenize` succeeds exactly when every token of its input yields
at least one WordPunct token. -/
lemma tokenize_isSome_iff :
    ∀ (text : List (String × String)),
    (tokenize text).isSome = true ↔ ∀ p ∈ text, wordPunctTokenize p.1 ≠ [] := by
  intro text
  induction text with
  | nil => simp [tokenize]
  | cons p rest ih =>
    obtain ⟨t, pos⟩ := p
    rcases hw : (wordPunctTokenize t).head? with _ | w
    · have hnone : tokenize ((t, pos) :: rest) = none := by
        simp [tokenize, hw]
      rw [hnone]
      simp only [Option.isSome_none, Bool.false_eq_true, false_iff]
      intro hall
      exact hall (t, pos) (by simp) (List.head?_eq_none_iff.mp hw)
    · have hne : wordPunctTokenize t ≠ [] := by
        intro hnil
        rw [hnil] at hw
        simp at hw
      rcases hr : tokenize rest with _ | tl
      · have hnone : tokenize ((t, pos) :: rest) = none := by
          simp [tokenize, hw, hr]
        rw [hnone]
        simp only [Option.isSome_none, Bool.false_eq_true, false_iff]
        intro hall
        have : (tokenize rest).isSome = true :=
          ih.mpr (fun q hq => hall q (by simp [hq]))
        rw [hr] at this
        simp at this
      · have hsome : (tokenize ((t, pos) :: rest)).isSome = true := by
          simp only [tokenize, hw, hr]
          split <;> rfl
        constructor
        · intro _ q hq
          rcases List.mem_cons.mp hq with rfl | hq
          · exact hne
          · exact ih.mp (by rw [hr]; rfl) q hq
        · intro _
          exact hsome

/-! ## C6 -/

/-- C6 (counterexample): `extract_context` does have a failure mode.  With a
context whose first token is the empty string and target position 1, the
left window's `tokenizer.tokenize(w[0])[0]` finds no token to index, so the
call fails (Python: IndexError), contradicting the claimed totality on every
input. -/
theorem extract_context_fails_on_empty_token :
    extract_context 1 [("", "X"), ("hard", "JJ")] 2 = none := by
  rfl

/-- C6 (amended): `extract_context` returns two (possibly empty) sequences
exactly when every token strictly before the target position and every token
strictly after it contains at least one non-whitespace character; a token
that is empty or whitespace-only makes the tokenizer's first-token access
fail. -/
theorem extract_context_isSome_iff :
    ∀ (pos : Nat) (text : List (String × String)) (ctx : Nat),
    (extract_context pos text ctx).isSome = true ↔
      ((∀ p ∈ text.take pos, ∃ c ∈ p.1.toList, c.isWhitespace = false) ∧
       (∀ p ∈ text.drop (pos + 1), ∃ c ∈ p.1.toList, c.isWhitespace = false)) := by
  intro pos text ctx
  have conv : ∀ (q : String × String),
      wordPunctTokenize q.1 ≠ [] ↔ ∃ c ∈ q.1.toList, c.isWhitespace = false := by
    intro q
    rw [Ne, wordPunctTokenize_eq_nil_iff]
    simp [Bool.not_eq_true]
  have hlft := tokenize_isSome_iff (text.take pos)
  have hrgt := tokenize_isSome_iff (text.drop (pos + 1))
  cases hA : tokenize (text.take pos) with
  | none =>
    have hec : extract_context pos text ctx = none := by
      simp [extract_context, hA]
    rw [hec]
    simp only [Option.isSome_none, Bool.false_eq_true, false_iff]
    rintro ⟨h1, -⟩
    have : (tokenize (text.take pos)).isSome = true :=
      hlft.mpr (fun q hq => (conv q).mpr (h1 q hq))
    rw [hA] at this
    simp at this
  | some l =>
    cases hB : tokenize (text.drop (pos + 1)) with
    | none =>
      have hec : extract_context pos text ctx = none := by
        simp [extract_context, hA, hB]
      rw [hec]
      simp only [Option.isSome_none, Bool.false_eq_true, false_iff]
      rintro ⟨-, h2⟩
      have : (tokenize (text.drop (pos + 1))).isSome = true :=
        hrgt.mpr (fun q hq => (conv q).mpr (h2 q hq))
      rw [hB] at this
      simp at this
    | some r =>
      have hec : extract_context pos text ctx
          = some (pyTakeLast ctx l, r.take ctx) := by
        simp [extract_context, hA, hB]
      rw [hec]
      simp only [Option.isSome_some, true_iff]
      constructor
      · intro q hq
        exact (conv q).mp (hlft.mp (by rw [hA]; rfl) q hq)
      · intro q hq
        exact (conv q).mp (hrgt.mp (by rw [hB]; rfl) q hq)

/-- Witness for the amended C6 statement on the spec's scenario sentence. -/
theorem extract_context_isSome_iff_witness :
    (extract_context 2 [("guitar", "NN"), ("and", "CC"), ("bass", "NN"),
        ("player", "NN"), ("stand", "VB")] 2).isSome = true :=
  (extract_context_isSome_iff 2 [("guitar", "NN"), ("and", "CC"), ("bass", "NN"),
    ("player", "NN"), ("stand", "VB")] 2).mpr (by decide)

/-! ## C7 -/

/-- C7 (counterexample): normalization does not lowercase-and-strip the whole
original token.  The token `"low-and"` (present in the corpus, cell-4
output) is first WordPunct-tokenized into `["low", "-", "and"]` and only the
first segment is kept, so it normalizes to `"low"`, not to the claimed
`"lowand"`. -/
theorem tokenize_splits_hyphenated :
    tokenize [("low-and", "JJ")] = some [("low", "JJ")] ∧
    ("low" : String) ≠ "lowand" := by
  exact ⟨rfl, by decide⟩

/-- C7 (amended): for every (token, POS) pair, the normalized token is the
FIRST WordPunct segment of the original token, lowercased, with punctuation
characters deleted; the pair is dropped exactly when that result is empty.
(The quote-artifact `filters` list of cell-11 is defined but never consulted;
its members normalize to the empty string and are dropped by the emptiness
test anyway, as the final conjunct shows.) -/
theorem tokenize_cons_characterization :
    (∀ (t pos : String) (rest out : List (String × String)),
      tokenize ((t, pos) :: rest) = some out →
      ∃ w ws tl, wordPunctTokenize t = w :: ws ∧ tokenize rest = some tl ∧
        out = (if 1 ≤ (removePunct (pyLower w)).length
               then (removePunct (pyLower w), pos) :: tl else tl)) ∧
    tokenize [("\x60\x60", "X"), ("\x27\x27", "Y")] = some [] := by
  refine ⟨?_, rfl⟩
  intro t pos rest out h
  cases hw : wordPunctTokenize t with
  | nil => rw [show tokenize ((t, pos) :: rest) = none by simp [tokenize, hw]] at h; exact absurd h (by simp)
  | cons w ws =>
    cases hr : tokenize rest with
    | none =>
      rw [show tokenize ((t, pos) :: rest) = none by simp [tokenize, hw, hr]] at h
      exact absurd h (by simp)
    | some tl =>
      refine ⟨w, ws, tl, rfl, rfl, ?_⟩
      simp only [tokenize, hw, List.head?_cons, hr] at h
      split at h
      · rename_i hcond
        rw [if_pos hcond]
        exact (Option.some.inj h).symm
      · rename_i hcond
        rw [if_neg hcond]
        exact (Option.some.inj h).symm

/-- Witness for the amended C7 statement at the hyphenated corpus token. -/
theorem tokenize_cons_characterization_witness :
    ∃ w ws tl, wordPunctTokenize "low-and" = w :: ws ∧
      tokenize [] = some tl ∧
      ([("low", "JJ")] : List (String × String)) =
        (if 1 ≤ (removePunct (pyLower w)).length
         then (removePunct (pyLower w), "JJ") :: tl else tl) :=
  tokenize_cons_characterization.1 "low-and" "JJ" [] [("low", "JJ")] rfl

/-! ## C5 -/

/-- C5 (spec-modelled evaluator): accuracy is the number of correct
predictions divided by the number of test records whenever the test set is
nonempty; on an empty test set the result is undefined (`none`), never a
division; and any defined accuracy is a rational in [0, 1]. -/
theorem accuracy_spec :
    (∀ (predict : FeatureRecord → String × String)
        (ts : List (FeatureRecord × (String × String))),
      ts ≠ [] →
      accuracy predict ts =
        some (((ts.filter (fun p => predict p.1 == p.2)).length : ℚ) /
          (ts.length : ℚ))) ∧
    (∀ predict, accuracy predict [] = none) ∧
    (∀ (predict : FeatureRecord → String × String)
        (ts : List (FeatureRecord × (String × String))) (q : ℚ),
      accuracy predict ts = some q → 0 ≤ q ∧ q ≤ 1) := by
  refine ⟨?_, ?_, ?_⟩
  · intro predict ts h
    unfold accuracy
    rw [if_neg (by simpa using h)]
  · intro predict
    rfl
  · intro predict ts q h
    unfold accuracy at h
    by_cases he : ts.isEmpty
    · rw [if_pos he] at h
      exact absurd h (by simp)
    · rw [if_neg he] at h
      have hq := Option.some.inj h
      rw [← hq]
      constructor
      · positivity
      · refine div_le_one_of_le₀ ?_ (by positivity)
        exact_mod_cast List.length_filter_le _ _

/-- Witness for C5 on a one-record test set whose prediction is correct. -/
theorem accuracy_spec_witness :
    accuracy (fun _ => ("hard-a", "HARD1"))
        [(⟨"hard", [], [], []⟩, ("hard-a", "HARD1"))] =
      some ((([(⟨"hard", [], [], []⟩, ("hard-a", "HARD1"))].filter
            (fun p : FeatureRecord × (String × String) =>
              (fun _ => ("hard-a", "HARD1")) p.1 == p.2)).length : ℚ) /
        (([(⟨"hard", [], [], []⟩, ("hard-a", "HARD1"))] :
            List (FeatureRecord × (String × String))).length : ℚ)) :=
  accuracy_spec.1 (fun _ => ("hard-a", "HARD1"))
    [(⟨"hard", [], [], []⟩, ("hard-a", "HARD1"))] (by simp)

/-! ## Sorting and deduplication lemmas for C9 -/

lemma mem_insertByDesc (c : String → Nat) (x : String) :
    ∀ (l : List String) (y : String), y ∈ insertByDesc c x l → y = x ∨ y ∈ l := by
  intro l
  induction l with
  | nil =>
    intro y hy
    simp [insertByDesc] at hy
    exact Or.inl hy
  | cons z zs ih =>
    intro y hy
    simp only [insertByDesc] at hy
    split at hy
    · rcases List.mem_cons.mp hy with rfl | hy
      · exact Or.inl rfl
      · exact Or.inr hy
    · rcases List.mem_cons.mp hy with rfl | hy
      · exact Or.inr (by simp)
      · rcases ih y hy with h | h
        · exact Or.inl h
        · exact Or.inr (by simp [h])

lemma insertByDesc_perm (c : String → Nat) (x : String) :
    ∀ (l : List String), (insertByDesc c x l).Perm (x :: l) := by
  intro l
  induction l with
  | nil => simp [insertByDesc]
  | cons y ys ih =>
    simp only [insertByDesc]
    split
    · exact List.Perm.refl _
    · exact (ih.cons y).trans (List.Perm.swap x y ys)

lemma sortByDesc_perm (c : String → Nat) :
    ∀ (l : List String), (sortByDesc c l).Perm l := by
  intro l
  induction l with
  | nil => simp [sortByDesc]
  | cons x xs ih =>
    simp only [sortByDesc]
    exact (insertByDesc_perm c x (sortByDesc c xs)).trans (ih.cons x)

lemma pairwise_insertByDesc (c : String → Nat) (P : String → String → Prop)
    (hstrict : ∀ a b, c b < c a → P a b) (x : String) :
    ∀ (l : List String), (∀ y ∈ l, c y = c x → P x y) →
    l.Pairwise P → l.Pairwise (fun a b => c b ≤ c a) →
    (insertByDesc c x l).Pairwise P ∧
    (insertByDesc c x l).Pairwise (fun a b => c b ≤ c a) := by
  intro l
  induction l with
  | nil =>
    intro _ _ _
    simp [insertByDesc]
  | cons y ys ih =>
    intro heq hP hs
    rw [List.pairwise_cons] at hP hs
    obtain ⟨hPy, hPys⟩ := hP
    obtain ⟨hsy, hsys⟩ := hs
    simp only [insertByDesc]
    split
    · rename_i hc
      constructor
      · rw [List.pairwise_cons]
        refine ⟨?_, ?_⟩
        · intro z hz
          rcases List.mem_cons.mp hz with rfl | hz
          · rcases lt_or_eq_of_le hc with h | h
            · exact hstrict x z h
            · exact heq z (by simp) h
          · have hzc : c z ≤ c x := le_trans (hsy z hz) hc
            rcases lt_or_eq_of_le hzc with h | h
            · exact hstrict x z h
            · exact heq z (List.mem_cons_of_mem y hz) h
        · rw [List.pairwise_cons]
          exact ⟨hPy, hPys⟩
      · rw [List.pairwise_cons]
        refine ⟨?_, ?_⟩
        · intro z hz
          rcases List.mem_cons.mp hz with rfl | hz
          · exact hc
          · exact le_trans (hsy z hz) hc
        · rw [List.pairwise_cons]
          exact ⟨hsy, hsys⟩
    · rename_i hc
      have hxy : c x < c y := not_le.mp hc
      obtain ⟨ihP, ihS⟩ :=
        ih (fun z hz h => heq z (List.mem_cons_of_mem y hz) h) hPys hsys
      constructor
      · rw [List.pairwise_cons]
        refine ⟨?_, ihP⟩
        intro z hz
        rcases mem_insertByDesc c x ys z hz with rfl | hz
        · exact hstrict y z hxy
        · exact hPy z hz
      · rw [List.pairwise_cons]
        refine ⟨?_, ihS⟩
        intro z hz
        rcases mem_insertByDesc c x ys z hz with rfl | hz
        · exact le_of_lt hxy
        · exact hsy z hz

lemma pairwise_sortByDesc (c : String → Nat) (P : String → String → Prop)
    (hstrict : ∀ a b, c b < c a → P a b) :
    ∀ (l : List String),
    (∀ a b, List.Sublist [a, b] l → c b = c a → P a b) →
    (sortByDesc c l).Pairwise P ∧
    (sortByDesc c l).Pairwise (fun a b => c b ≤ c a) := by
  intro l
  induction l with
  | nil =>
    intro _
    simp [sortByDesc]
  | cons x xs ih =>
    intro hties
    obtain ⟨ihP, ihS⟩ := ih (fun a b hs h => hties a b (hs.cons x) h)
    simp only [sortByDesc]
    refine pairwise_insertByDesc c P hstrict x (sortByDesc c xs) ?_ ihP ihS
    intro y hy h
    refine hties x y ?_ h
    have hyxs : y ∈ xs := ((sortByDesc_perm c xs).mem_iff).mp hy
    exact (List.singleton_sublist.mpr hyxs).cons₂ x

lemma mem_dedupFirst_aux :
    ∀ (l acc : List String) (x : String),
    x ∈ l.foldl (fun acc y => if y ∈ acc then acc else acc ++ [y]) acc →
    x ∈ acc ∨ x ∈ l := by
  intro l
  induction l with
  | nil => intro acc x h; exact Or.inl h
  | cons y ys ih =>
    intro acc x h
    rw [List.foldl_cons] at h
    rcases ih _ x h with h' | h'
    · split at h'
      · exact Or.inl h'
      · rcases List.mem_append.mp h' with h'' | h''
        · exact Or.inl h''
        · simp at h''
          subst h''
          exact Or.inr (by simp)
    · exact Or.inr (by simp [h'])

lemma mem_dedupFirst (l : List String) (x : String) (h : x ∈ dedupFirst l) :
    x ∈ l := by
  rcases mem_dedupFirst_aux l [] x h with h' | h'
  · simp at h'
  · exact h'

lemma contentTokens_prop (stop : List String) (win : List (String × String)) :
    ∀ w ∈ contentTokens stop win, w ∉ stop ∧ 2 ≤ w.length := by
  intro w hw
  unfold contentTokens at hw
  have hp := (List.mem_filter.mp hw).2
  simp only [Bool.and_eq_true, decide_eq_true_eq] at hp
  exact ⟨hp.1, hp.2⟩

lemma lemmasForClass_mem_aux (stop : List String) (cw : String) (ctx : Nat) :
    ∀ (insts : List LoadedInstance) (acc : List String),
    (∀ w ∈ acc, w ∉ stop ∧ 2 ≤ w.length) →
    ∀ (lemmas : List String),
    List.foldlM (lemmaStep stop cw ctx) acc insts = some lemmas →
    ∀ w ∈ lemmas, w ∉ stop ∧ 2 ≤ w.length := by
  intro insts
  induction insts with
  | nil =>
    intro acc hacc lemmas h w hw
    rw [List.foldlM_nil] at h
    have : acc = lemmas := Option.some.inj h
    exact hacc w (this ▸ hw)
  | cons i is ih =>
    intro acc hacc lemmas h w hw
    rw [List.foldlM_cons] at h
    cases hstep : lemmaStep stop cw ctx acc i with
    | none =>
      rw [hstep] at h
      simp at h
    | some acc' =>
      rw [hstep] at h
      replace h : List.foldlM (lemmaStep stop cw ctx) acc' is = some lemmas := h
      refine ih acc' ?_ lemmas h w hw
      intro v hv
      unfold lemmaStep at hstep
      split at hstep
      · cases hec : extract_context i.position i.context ctx with
        | none =>
          rw [hec] at hstep
          simp at hstep
        | some lr =>
          rw [hec] at hstep
          have hacc' := Option.some.inj hstep
          rw [← hacc'] at hv
          rcases List.mem_append.mp hv with hv' | hv'
          · rcases List.mem_append.mp hv' with hv'' | hv''
            · exact hacc v hv''
            · exact contentTokens_prop stop lr.1 v hv''
          · exact contentTokens_prop stop lr.2 v hv'
      · have hacc' := Option.some.inj hstep
        rw [← hacc'] at hv
        exact hacc v hv

/-! ## C9 -/

/-- C9: every vocabulary the cell-19 builder produces has length at most K,
contains no stopword and no token shorter than two characters, and is
ordered by strictly descending frequency over the aggregated normalized
context tokens of that lemma's instances, with frequency ties broken by
first-encountered order (order in the first-occurrence deduplication of the
aggregated token list). -/
theorem buildVocab_invariant :
    ∀ (stop : List String) (k : Nat) (cw : String)
      (insts : List LoadedInstance) (ctx : Nat) (v : List String),
    buildVocab stop k cw insts ctx = some v →
    v.length ≤ k ∧
    (∀ w ∈ v, w ∉ stop ∧ 2 ≤ w.length) ∧
    (∃ lemmas, lemmasForClass stop cw insts ctx = some lemmas ∧
      v.Pairwise (fun a b =>
        lemmas.count b < lemmas.count a ∨
        (lemmas.count b = lemmas.count a ∧
          List.Sublist [a, b] (dedupFirst lemmas)))) := by
  intro stop k cw insts ctx v h
  unfold buildVocab at h
  cases hl : lemmasForClass stop cw insts ctx with
  | none =>
    rw [hl] at h
    exact absurd h (by simp)
  | some lemmas =>
    rw [hl] at h
    have hv := (Option.some.inj h).symm
    subst hv
    refine ⟨?_, ?_, lemmas, rfl, ?_⟩
    · rw [List.length_take]
      exact Nat.min_le_left _ _
    · intro w hw
      have h1 : w ∈ sortByDesc (fun w => lemmas.count w) (dedupFirst lemmas) :=
        (List.take_sublist _ _).subset hw
      have h2 : w ∈ dedupFirst lemmas := ((sortByDesc_perm _ _).mem_iff).mp h1
      have h3 : w ∈ lemmas := mem_dedupFirst _ _ h2
      exact lemmasForClass_mem_aux stop cw ctx insts [] (by simp) lemmas hl w h3
    · have hpw := pairwise_sortByDesc (fun w => lemmas.count w)
        (fun a b => lemmas.count b < lemmas.count a ∨
          (lemmas.count b = lemmas.count a ∧
            List.Sublist [a, b] (dedupFirst lemmas)))
        (fun a b hab => Or.inl hab) (dedupFirst lemmas)
        (fun a b hs he => Or.inr ⟨he, hs⟩)
      exact hpw.1.sublist (List.take_sublist k _)

/-- Witness for C9 on a one-instance corpus. -/
theorem buildVocab_invariant_witness :
    ∃ v, buildVocab ["the"] 2 "w"
        [⟨"w", 0, [("x", ""), ("time", "NN"), ("work", "NN")], "s"⟩] 2 = some v ∧
      v.length ≤ 2 ∧ (∀ w ∈ v, w ∉ ["the"] ∧ 2 ≤ w.length) := by
  obtain ⟨h1, h2, -⟩ := buildVocab_invariant ["the"] 2 "w"
    [⟨"w", 0, [("x", ""), ("time", "NN"), ("work", "NN")], "s"⟩] 2
    ["time", "work"] rfl
  exact ⟨["time", "work"], rfl, h1, h2⟩

/-! ## C10 -/

lemma featureSets_len_aux (w s : String) (vocab : List String) (ctx : Nat) :
    ∀ (insts : List LoadedInstance)
      (acc out : List (FeatureRecord × (String × String))),
    List.foldlM (featureStep w s vocab ctx) acc insts = some out →
    out.length = acc.length + (insts.filter (fun i => selects w s i)).length := by
  intro insts
  induction insts with
  | nil =>
    intro acc out h
    rw [List.foldlM_nil] at h
    have : acc = out := Option.some.inj h
    rw [← this]
    simp
  | cons i is ih =>
    intro acc out h
    rw [List.foldlM_cons] at h
    cases hsel : selects w s i with
    | false =>
      have hstep : featureStep w s vocab ctx acc i = some acc := by
        simp [featureStep, hsel]
      rw [hstep] at h
      replace h : List.foldlM (featureStep w s vocab ctx) acc is = some out := h
      rw [ih acc out h, List.filter_cons]
      simp [hsel]
    | true =>
      cases hif : instanceFeature i vocab ctx with
      | none =>
        have hstep : featureStep w s vocab ctx acc i = none := by
          simp [featureStep, hsel, hif]
        rw [hstep] at h
        simp at h
      | some fr =>
        have hstep : featureStep w s vocab ctx acc i
            = some (acc ++ [(fr, (w, s))]) := by
          simp [featureStep, hsel, hif]
        rw [hstep] at h
        replace h : List.foldlM (featureStep w s vocab ctx)
            (acc ++ [(fr, (w, s))]) is = some out := h
        rw [ih _ out h, List.filter_cons]
        simp [hsel]
        omega

/-- C10: in the cell-23 feature-set construction an instance contributes a
record for label (w, s) exactly when w equals the instance's word and s
occurs as a substring of the instance's string-valued senses field; the
substring test is monotone, so a sense id that is a substring of another
selects every instance of the longer sense id; concretely, an instance whose
senses string is `"SERVE12"` is selected by the distinct hypothetical sense
id `"SERVE1"` even though the two ids are not equal. -/
theorem featureSets_substring_selection :
    (∀ (w s : String) (insts : List LoadedInstance) (vocab : List String)
        (ctx : Nat) (out : List (FeatureRecord × (String × String))),
      featureSets w s insts vocab ctx = some out →
      out.length = (insts.filter (fun i => selects w s i)).length) ∧
    (∀ (w s : String) (inst : LoadedInstance),
      selects w s inst = true ↔
        (w = inst.word ∧ List.IsInfix s.toList inst.senses.toList)) ∧
    (∀ (w s1 s2 : String) (inst : LoadedInstance),
      List.IsInfix s1.toList s2.toList →
      selects w s2 inst = true → selects w s1 inst = true) ∧
    (selects "serve-v" "SERVE1" ⟨"serve-v", 0, [], "SERVE12"⟩ = true ∧
      ("SERVE1" : String) ≠ "SERVE12") := by
  have hiff : ∀ (w s : String) (inst : LoadedInstance),
      selects w s inst = true ↔
        (w = inst.word ∧ List.IsInfix s.toList inst.senses.toList) := by
    intro w s inst
    simp [selects]
  refine ⟨?_, hiff, ?_, by decide, by decide⟩
  · intro w s insts vocab ctx out h
    have hl := featureSets_len_aux w s vocab ctx insts [] out h
    simpa using hl
  · intro w s1 s2 inst h12 h2
    rw [hiff] at h2 ⊢
    exact ⟨h2.1, h12.trans h2.2⟩

/-- Witness for C10 on a one-instance corpus whose senses string strictly
extends the queried sense id. -/
theorem featureSets_substring_selection_witness :
    ([(extract_features "serves" [] [] [], ("serve-v", "SERVE1"))] :
        List (FeatureRecord × (String × String))).length =
      ([(⟨"serve-v", 0, [("serves", "VBZ")], "SERVE12"⟩ : LoadedInstance)].filter
          (fun i => selects "serve-v" "SERVE1" i)).length :=
  featureSets_substring_selection.1 "serve-v" "SERVE1"
    [⟨"serve-v", 0, [("serves", "VBZ")], "SERVE12"⟩] [] 2
    [(extract_features "serves" [] [] [], ("serve-v", "SERVE1"))] rfl

end WSD
